import Mathlib

/-!
Verification of the wiki-app client core: the tree builder
(`buildTreeFromFlat`, `findPageInTree`), the diff engine (`getDiff`),
the tag-based cache invalidation contract, the session/credential
handling of the query layer, and the recently-visited-pages bookkeeping.

Each definition is a shallow embedding of the corresponding TypeScript
source. JavaScript truthiness is modelled explicitly where the source
relies on it (`0`, `""`, `null`/`undefined` are falsy).
-/

namespace WikiApp

/-! ### Diff engine (src PageHistory `getDiff`) -/

/-- Tag of one output record of the diff engine. -/
inductive DiffType where
  | added
  | removed
  | unchanged
deriving DecidableEq, Repr

/-- One line record of the diff output: a tag plus the literal text. -/
structure DiffLine where
  type : DiffType
  text : String
deriving DecidableEq, Repr

/-- Splitting of a character list at every occurrence of the separator
`c`, mirroring JavaScript `String.prototype.split` with a one-character
separator: the empty text yields `[[]]`, and separators at either end
produce empty fields. -/
def splitChar (c : Char) : List Char → List (List Char)
  | [] => [[]]
  | x :: xs =>
    match splitChar c xs with
    | [] => [[]]
    | l :: ls => if x = c then [] :: l :: ls else (x :: l) :: ls

/-- Embedding of `text.split('\n')` from the source: split a string into
its lines at newline characters. -/
def jsSplitLines (s : String) : List String :=
  (splitChar '\n' s.data).map (fun l => ⟨l⟩)

/-- Records emitted at index `i` of the positional comparison, embedding
the loop body of `getDiff`: `oldLines[i] || ''` is `List.getD i ""`
(an absent index gives `undefined`, which `|| ''` turns into `""`;
an empty string is likewise falsy and stays `""`), and the truthiness
guards `if (oldLine)` / `if (newLine)` are the non-emptiness tests. -/
def diffStep (oldLines newLines : List String) (i : Nat) : List DiffLine :=
  let oldLine := oldLines.getD i ""
  let newLine := newLines.getD i ""
  if oldLine = newLine then
    [⟨.unchanged, oldLine⟩]
  else
    (if oldLine ≠ "" then [⟨.removed, oldLine⟩] else []) ++
      (if newLine ≠ "" then [⟨.added, newLine⟩] else [])

/-- Embedding of `getDiff(oldText, newText)`: split both texts on
newline, then walk indices `0 .. max(len, len) - 1` with a loop that
pushes the records of `diffStep` onto the result array. -/
def getDiff (oldText newText : String) : List DiffLine :=
  let oldLines := jsSplitLines oldText
  let newLines := jsSplitLines newText
  let maxLines := max oldLines.length newLines.length
  (List.range maxLines).foldl (fun result i => result ++ diffStep oldLines newLines i) []

/-- Modelled from the spec (§4.2): the positional reference diff, stated
the way the specification words it — for each index of
`0 .. max(len(previousLines), len(currentLines)) - 1` emit one unchanged
record when the lines agree (absent lines read as `""`), otherwise a
removed record for a non-empty previous line followed by an added record
for a non-empty current line. -/
def refDiff (previous current : String) : List DiffLine :=
  let previousLines := jsSplitLines previous
  let currentLines := jsSplitLines current
  (List.range (max previousLines.length currentLines.length)).flatMap
    (fun i =>
      let p := previousLines.getD i ""
      let c := currentLines.getD i ""
      if p = c then
        [⟨.unchanged, p⟩]
      else
        (if p ≠ "" then [⟨.removed, p⟩] else []) ++
          (if c ≠ "" then [⟨.added, c⟩] else []))

/-! ### Diff engine lemmas and claims -/

theorem foldl_append_eq_flatMap {α β : Type} (f : α → List β) :
    ∀ (l : List α) (init : List β),
      l.foldl (fun r i => r ++ f i) init = init ++ l.flatMap f := by
  intro l
  induction l with
  | nil => simp
  | cons x xs ih => intro init; simp [List.foldl_cons, ih]

theorem splitChar_ne_nil (c : Char) (l : List Char) : splitChar c l ≠ [] := by
  induction l with
  | nil => simp [splitChar]
  | cons x xs ih =>
    simp only [splitChar]
    cases h : splitChar c xs with
    | nil => simp
    | cons a as =>
      by_cases hx : x = c <;> simp [hx]

theorem jsSplitLines_length_pos (s : String) : 0 < (jsSplitLines s).length := by
  unfold jsSplitLines
  simp only [List.length_map]
  exact List.length_pos_of_ne_nil (splitChar_ne_nil _ _)

theorem getDiff_eq_flatMap (oldText newText : String) :
    getDiff oldText newText =
      (List.range (max (jsSplitLines oldText).length (jsSplitLines newText).length)).flatMap
        (diffStep (jsSplitLines oldText) (jsSplitLines newText)) := by
  unfold getDiff
  rw [foldl_append_eq_flatMap]
  simp

/-- C2. The source diff `getDiff` coincides with the positional reference
diff described by the specification: split both texts on newline, walk
the indices up to the longer line count, emit one unchanged record when
the lines at an index agree (absent lines read as the empty string), and
otherwise a removed record for a non-empty previous line followed by an
added record for a non-empty current line. -/
theorem getDiff_eq_refDiff (previous current : String) :
    getDiff previous current = refDiff previous current := by
  rw [getDiff_eq_flatMap]
  unfold refDiff diffStep
  rfl

theorem range_flatMap_getD {α β : Type} (g : α → List β) (d : α) (l : List α) :
    (List.range l.length).flatMap (fun i => g (l.getD i d)) = l.flatMap g := by
  induction l with
  | nil => simp
  | cons x xs ih =>
    rw [List.length_cons, List.range_succ_eq_map]
    simp only [List.flatMap_cons, List.getD_cons_zero, List.flatMap_map, Function.comp,
      List.getD_cons_succ]
    rw [ih]

theorem flatMap_ite_singleton (l : List String) :
    l.flatMap (fun s => if s = "" then ([⟨DiffType.unchanged, ""⟩] : List DiffLine)
        else [⟨DiffType.added, s⟩])
      = l.map (fun s => if s = "" then ⟨DiffType.unchanged, ""⟩ else ⟨DiffType.added, s⟩) := by
  induction l with
  | nil => rfl
  | cons x xs ih => by_cases hx : x = "" <;> simp [hx, ih]

/-- C5 counterexample. At `B = ""` the output of `getDiff "" B` is a
single record of type `unchanged` (the two texts both split to one empty
line, which compare equal), so it is not the case that every record of
the output has type `added`. -/
theorem getDiff_empty_counterexample :
    ¬ (∀ r ∈ getDiff "" "", r.type = DiffType.added) := by decide

/-- C5 (amended). Diffing from the empty previous text maps each line of
the current text to exactly one record: an `added` record carrying the
line when it is non-empty, and an `unchanged` record carrying the empty
string when the line is empty. In particular every non-empty line of the
current text yields one added record and no `removed` record ever
occurs; but empty lines of the current text yield `unchanged` (not
`added`) records. -/
theorem getDiff_from_empty (current : String) :
    getDiff "" current =
      (jsSplitLines current).map
        (fun l => if l = "" then ⟨DiffType.unchanged, ""⟩ else ⟨DiffType.added, l⟩) := by
  rw [getDiff_eq_flatMap]
  have hempty : jsSplitLines "" = [""] := by decide
  rw [hempty]
  have hmax : max ([""] : List String).length (jsSplitLines current).length
      = (jsSplitLines current).length := by
    have := jsSplitLines_length_pos current
    simp only [List.length_cons, List.length_nil]
    omega
  rw [hmax]
  have hstep : diffStep [""] (jsSplitLines current) =
      fun i => (fun l => if l = "" then ([⟨DiffType.unchanged, ""⟩] : List DiffLine)
        else [⟨DiffType.added, l⟩]) ((jsSplitLines current).getD i "") := by
    funext i
    unfold diffStep
    have hold : (([""] : List String)).getD i "" = "" := by
      cases i <;> rfl
    rw [hold]
    set x := (jsSplitLines current).getD i "" with hx
    by_cases hc : x = ""
    · simp [hc]
    · simp [hc, Ne.symm hc]
  rw [hstep]
  exact (range_flatMap_getD
      (fun l => if l = "" then ([⟨DiffType.unchanged, ""⟩] : List DiffLine)
        else [⟨DiffType.added, l⟩]) "" (jsSplitLines current)).trans
    (flatMap_ite_singleton (jsSplitLines current))

/-- C10. Every record of the diff output whose type is `added` or
`removed` carries non-empty text: the source pushes a removed record
only under the truthiness guard `if (oldLine)` and an added record only
under `if (newLine)`, so a record with empty text can only be
`unchanged`. -/
theorem getDiff_added_removed_nonempty (oldText newText : String) (r : DiffLine)
    (hmem : r ∈ getDiff oldText newText)
    (hty : r.type = DiffType.added ∨ r.type = DiffType.removed) :
    r.text ≠ "" := by
  rw [getDiff_eq_flatMap] at hmem
  rw [List.mem_flatMap] at hmem
  obtain ⟨i, -, hr⟩ := hmem
  unfold diffStep at hr
  set o := (jsSplitLines oldText).getD i "" with ho
  set n := (jsSplitLines newText).getD i "" with hn
  by_cases heq : o = n
  · rw [if_pos heq] at hr
    rw [List.mem_singleton] at hr
    subst hr
    rcases hty with h | h <;> simp at h
  · rw [if_neg heq, List.mem_append] at hr
    rcases hr with hr | hr
    · by_cases hne : o = ""
      · simp [hne] at hr
      · rw [if_pos hne] at hr
        rw [List.mem_singleton] at hr
        subst hr
        simpa using hne
    · by_cases hne : n = ""
      · simp [hne] at hr
      · rw [if_pos hne] at hr
        rw [List.mem_singleton] at hr
        subst hr
        simpa using hne

/-- C10 witness: the removed record of `getDiff "a" "b"` indeed carries
non-empty text. -/
theorem getDiff_added_removed_nonempty_witness :
    (DiffLine.mk DiffType.removed "a").text ≠ "" :=
  getDiff_added_removed_nonempty "a" "b" ⟨DiffType.removed, "a"⟩ (by decide)
    (Or.inr rfl)

/-! ### Tree builder (src SidebarTree `buildTreeFromFlat`, PageViewer /
HomePage `findPageInTree`, Sidebar `PageTreeItem`) -/

/-- Flat page record as consumed by the tree builder: a numeric id, the
nullable parent id, and the display payload the sidebar uses. -/
structure Page where
  id : Nat
  parent_id : Option Nat
  title : String
  like_count : Nat
deriving DecidableEq, Repr

instance : Inhabited Page := ⟨⟨0, none, "", 0⟩⟩

/-- Node of the built forest: the page record together with the mutable
`children` array it was given, `{ ...page, children: [] }` at creation
and filled by the second pass of the builder. -/
inductive TreeNode where
  | mk (page : Page) (children : List TreeNode)
deriving Repr

def TreeNode.page : TreeNode → Page
  | .mk p _ => p

def TreeNode.children : TreeNode → List TreeNode
  | .mk _ c => c

/-- Attachment test of the builder's second pass, embedding the guard
`if (page.parent_id && map.has(page.parent_id))`: the page is pushed
onto the children of the node with id `j` exactly when its parent id is
present, truthy (a JavaScript number `0` is falsy), and a key of the
map, i.e. the id of some input page; the result is `none` exactly when
the `else` branch pushes the page onto the root list. -/
def attachesTo (pages : List Page) (p : Page) : Option Nat :=
  match p.parent_id with
  | none => none
  | some j => if j ≠ 0 ∧ j ∈ pages.map Page.id then some j else none

/-- Final contents of the children array of the node with id `i`: the
second pass walks `flatPages` in order and pushes each attaching page,
so the array holds exactly the input pages attaching to `i`, in input
order (ids are assumed pairwise distinct, the precondition §9 of the
spec assigns to the server). -/
def childPages (pages : List Page) (i : Nat) : List Page :=
  pages.filter (fun q => attachesTo pages q = some i)

/-- Final contents of the builder's root array: the input pages whose
attachment test fails, in input order. -/
def rootPages (pages : List Page) : List Page :=
  pages.filter (fun q => attachesTo pages q = none)

/-- Materialisation of the node of page `p` out of the final map state:
its children are the nodes of the pages attaching to `p.id`. The fuel
argument bounds the unfolding depth; `buildTreeFromFlat` passes
`pages.length`, which the acyclicity precondition makes sufficient, so
the truncation at fuel `0` is never reached from a root. -/
def buildNode (pages : List Page) : Nat → Page → TreeNode
  | 0, p => .mk p []
  | fuel + 1, p => .mk p ((childPages pages p.id).map (buildNode pages fuel))

/-- Embedding of `buildTreeFromFlat(flatPages)`: pass one fills a map
`id ↦ { ...page, children: [] }`; pass two pushes every page onto its
parent's children array or onto `roots`; the returned value is the
`roots` array, materialised here from the final map state. -/
def buildTreeFromFlat (pages : List Page) : List TreeNode :=
  (rootPages pages).map (buildNode pages pages.length)

/-- All pages stored in a forest, listed in depth-first order (each node
contributes its record once). -/
def flattenForest : List TreeNode → List Page
  | [] => []
  | .mk p cs :: rest => p :: (flattenForest cs ++ flattenForest rest)

/-- All nodes of a forest in depth-first order. -/
def allNodes : List TreeNode → List TreeNode
  | [] => []
  | .mk p cs :: rest => .mk p cs :: (allNodes cs ++ allNodes rest)

/-- Embedding of `findPageInTree(tree, targetId)` from PageViewer and
HomePage: walk the node list, return the first node whose id matches,
otherwise recurse into the children (the source's
`node.children && node.children.length > 0` guard is redundant, since
the recursion returns `null` on an empty list), and fall through to the
rest of the list. -/
def findPageInTree : List TreeNode → Nat → Option TreeNode
  | [], _ => none
  | .mk p cs :: rest, targetId =>
    if p.id = targetId then some (.mk p cs)
    else
      match findPageInTree cs targetId with
      | some found => some found
      | none => findPageInTree rest targetId

/-- Embedding of the display sort of `PageTreeItem`:
`[...page.children].sort((a, b) => bLikes - aLikes)` sorts a copy of the
children array by like count, descending. -/
def sortChildrenByLikes (cs : List TreeNode) : List TreeNode :=
  cs.mergeSort (fun a b => b.page.like_count ≤ a.page.like_count)

section TreeExamples

def pagesEx : List Page :=
  [⟨1, none, "a", 0⟩, ⟨2, some 1, "b", 3⟩, ⟨3, some 1, "c", 5⟩, ⟨4, some 9, "orphan", 0⟩]

example : buildTreeFromFlat pagesEx =
    [.mk ⟨1, none, "a", 0⟩ [.mk ⟨2, some 1, "b", 3⟩ [], .mk ⟨3, some 1, "c", 5⟩ []],
      .mk ⟨4, some 9, "orphan", 0⟩ []] := rfl

example : flattenForest (buildTreeFromFlat pagesEx) =
    [⟨1, none, "a", 0⟩, ⟨2, some 1, "b", 3⟩, ⟨3, some 1, "c", 5⟩, ⟨4, some 9, "orphan", 0⟩] := by
  have h : buildTreeFromFlat pagesEx =
      [.mk ⟨1, none, "a", 0⟩ [.mk ⟨2, some 1, "b", 3⟩ [], .mk ⟨3, some 1, "c", 5⟩ []],
        .mk ⟨4, some 9, "orphan", 0⟩ []] := rfl
  rw [h]
  simp [flattenForest]

example : (findPageInTree (buildTreeFromFlat pagesEx) 3).map TreeNode.page =
    some ⟨3, some 1, "c", 5⟩ := by
  have h : buildTreeFromFlat pagesEx =
      [.mk ⟨1, none, "a", 0⟩ [.mk ⟨2, some 1, "b", 3⟩ [], .mk ⟨3, some 1, "c", 5⟩ []],
        .mk ⟨4, some 9, "orphan", 0⟩ []] := rfl
  rw [h]
  simp [findPageInTree, TreeNode.page]

example : findPageInTree (buildTreeFromFlat pagesEx) 7 = none := by
  have h : buildTreeFromFlat pagesEx =
      [.mk ⟨1, none, "a", 0⟩ [.mk ⟨2, some 1, "b", 3⟩ [], .mk ⟨3, some 1, "c", 5⟩ []],
        .mk ⟨4, some 9, "orphan", 0⟩ []] := rfl
  rw [h]
  simp [findPageInTree, TreeNode.page]

end TreeExamples

/-! ### Tree builder: acyclicity hypothesis and ancestor relation -/

/-- Acyclicity of the parent relation of the input list, witnessed by a
rank function: the node a page attaches to has strictly smaller rank.
Every finite acyclic parent relation admits such a ranking (topological
depth), and the hypothesis is decidable on concrete inputs. -/
def ParentRanked (pages : List Page) (depth : Nat → Nat) : Prop :=
  ∀ p ∈ pages, ∀ q ∈ pages, attachesTo pages p = some q.id → depth q.id < depth p.id

instance (pages : List Page) (depth : Nat → Nat) :
    Decidable (ParentRanked pages depth) := by
  unfold ParentRanked; infer_instance

/-- Node the second pass pushes `q` onto: the map entry of `q`'s parent
id (the last input page carrying that id; with pairwise distinct ids,
the unique one). -/
def parentPage (pages : List Page) (q : Page) : Option Page :=
  match attachesTo pages q with
  | none => none
  | some j => pages.find? (fun r => r.id = j)

/-- Strict ancestor relation generated by `parentPage`. -/
inductive Anc (pages : List Page) : Page → Page → Prop
  | parent (p q : Page) : parentPage pages q = some p → Anc pages p q
  | step (p a q : Page) : parentPage pages q = some a → Anc pages p a → Anc pages p q

theorem attachesTo_some {pages : List Page} {q : Page} {j : Nat}
    (h : attachesTo pages q = some j) :
    q.parent_id = some j ∧ j ≠ 0 ∧ j ∈ pages.map Page.id := by
  cases hq : q.parent_id with
  | none => simp [attachesTo, hq] at h
  | some k =>
    simp only [attachesTo, hq] at h
    by_cases hc : k ≠ 0 ∧ k ∈ pages.map Page.id
    · rw [if_pos hc] at h
      cases h
      exact ⟨rfl, hc⟩
    · rw [if_neg hc] at h
      cases h

theorem attachesTo_eq_none {pages : List Page} {q : Page}
    (h : ∀ j, attachesTo pages q ≠ some j) : attachesTo pages q = none := by
  cases ha : attachesTo pages q with
  | none => rfl
  | some j => exact absurd ha (h j)

theorem parentPage_some {pages : List Page} {q a : Page}
    (h : parentPage pages q = some a) :
    attachesTo pages q = some a.id ∧ a ∈ pages := by
  cases ha : attachesTo pages q with
  | none => simp [parentPage, ha] at h
  | some j =>
    simp only [parentPage, ha] at h
    have haj : a.id = j := by simpa using List.find?_some h
    exact ⟨by rw [haj], List.mem_of_find?_eq_some h⟩

theorem parentPage_isSome {pages : List Page} {q : Page} {j : Nat}
    (h : attachesTo pages q = some j) : ∃ a, parentPage pages q = some a := by
  obtain ⟨-, -, hmem⟩ := attachesTo_some h
  obtain ⟨r, hr, hrj⟩ := List.mem_map.mp hmem
  have : (pages.find? (fun r => r.id = j)).isSome := by
    rw [List.find?_isSome]
    exact ⟨r, hr, by simpa using hrj⟩
  obtain ⟨a, ha⟩ := Option.isSome_iff_exists.mp this
  exact ⟨a, by unfold parentPage; rw [h]; exact ha⟩

theorem find?_id_eq_self {pages : List Page} {p : Page}
    (hN : (pages.map Page.id).Nodup) (hp : p ∈ pages) :
    pages.find? (fun r => r.id = p.id) = some p := by
  have hsome : (pages.find? (fun r => r.id = p.id)).isSome := by
    rw [List.find?_isSome]
    exact ⟨p, hp, by simp⟩
  obtain ⟨a, ha⟩ := Option.isSome_iff_exists.mp hsome
  have haid : a.id = p.id := by simpa using List.find?_some ha
  have hamem : a ∈ pages := List.mem_of_find?_eq_some ha
  have : a = p := List.inj_on_of_nodup_map hN hamem hp haid
  rw [ha, this]

theorem mem_childPages {pages : List Page} {c : Page} {i : Nat} :
    c ∈ childPages pages i ↔ c ∈ pages ∧ attachesTo pages c = some i := by
  simp [childPages, List.mem_filter]

theorem mem_rootPages {pages : List Page} {r : Page} :
    r ∈ rootPages pages ↔ r ∈ pages ∧ attachesTo pages r = none := by
  simp [rootPages, List.mem_filter]

theorem childPages_parentPage {pages : List Page} {p c : Page}
    (hN : (pages.map Page.id).Nodup) (hp : p ∈ pages)
    (hc : c ∈ childPages pages p.id) : parentPage pages c = some p := by
  obtain ⟨-, hat⟩ := mem_childPages.mp hc
  unfold parentPage
  rw [hat]
  exact find?_id_eq_self hN hp

theorem parentPage_rank {pages : List Page} {depth : Nat → Nat} {q a : Page}
    (hR : ParentRanked pages depth) (hq : q ∈ pages)
    (h : parentPage pages q = some a) :
    a ∈ pages ∧ depth a.id < depth q.id := by
  obtain ⟨hat, hmem⟩ := parentPage_some h
  exact ⟨hmem, hR q hq a hmem hat⟩

theorem anc_rank {pages : List Page} {depth : Nat → Nat}
    (hR : ParentRanked pages depth) {p q : Page}
    (h : Anc pages p q) :
    q ∈ pages → p ∈ pages ∧ depth p.id < depth q.id := by
  induction h with
  | parent q hpar =>
    intro hq
    exact parentPage_rank hR hq hpar
  | step a q hpar _ ih =>
    intro hq
    obtain ⟨hamem, halt⟩ := parentPage_rank hR hq hpar
    obtain ⟨hpmem, hplt⟩ := ih hamem
    exact ⟨hpmem, hplt.trans halt⟩

theorem anc_iff {pages : List Page} {p q : Page} :
    Anc pages p q ↔ ∃ a, parentPage pages q = some a ∧ (p = a ∨ Anc pages p a) := by
  constructor
  · intro h
    cases h with
    | parent q hpar => exact ⟨p, hpar, Or.inl rfl⟩
    | step a q hpar hanc => exact ⟨a, hpar, Or.inr hanc⟩
  · rintro ⟨a, hpar, rfl | h⟩
    · exact Anc.parent p q hpar
    · exact Anc.step p a q hpar h

theorem anc_of_parent_none {pages : List Page} {p q : Page}
    (hpar : parentPage pages q = none) : ¬ Anc pages p q := by
  intro h
  obtain ⟨a, ha, -⟩ := anc_iff.mp h
  rw [hpar] at ha
  cases ha

/-! ### Tree builder: counting the records of the built forest -/

theorem page_buildNode (pages : List Page) (fuel : Nat) (p : Page) :
    (buildNode pages fuel p).page = p := by
  cases fuel <;> rfl

theorem flattenForest_cons (t : TreeNode) (ts : List TreeNode) :
    flattenForest (t :: ts) = flattenForest [t] ++ flattenForest ts := by
  cases t with
  | mk p cs => simp [flattenForest]

theorem flattenForest_single (p : Page) (cs : List TreeNode) :
    flattenForest [TreeNode.mk p cs] = p :: flattenForest cs := by
  simp [flattenForest]

theorem count_flattenForest_map (q : Page) (g : Page → TreeNode) (l : List Page) :
    (flattenForest (l.map g)).count q
      = (l.map (fun c => (flattenForest [g c]).count q)).sum := by
  induction l with
  | nil => simp [flattenForest]
  | cons x xs ih =>
    rw [List.map_cons, flattenForest_cons, List.count_append, ih, List.map_cons,
      List.sum_cons]

theorem sum_map_ite_eq_count {α : Type} [DecidableEq α] (a : α) (l : List α) :
    (l.map (fun c => if c = a then 1 else 0)).sum = l.count a := by
  induction l with
  | nil => simp
  | cons x xs ih =>
    rw [List.map_cons, List.sum_cons, ih, List.count_cons]
    by_cases hx : x = a <;> simp [hx, Nat.add_comm]

theorem length_filter_le_of_imp {α : Type} (l : List α) (f g : α → Bool)
    (himp : ∀ x ∈ l, g x = true → f x = true) :
    (l.filter g).length ≤ (l.filter f).length := by
  induction l with
  | nil => simp
  | cons y ys ih =>
    have ih' := ih (fun x hx => himp x (List.mem_cons_of_mem y hx))
    by_cases hg : g y = true
    · have hf : f y = true := himp y (List.mem_cons_self y ys) hg
      simp only [List.filter_cons, hg, hf, if_true]
      simpa using ih'
    · by_cases hf : f y = true <;>
        simp [List.filter_cons, hg, hf] <;> omega

theorem length_filter_lt_of_imp {α : Type} (l : List α) (f g : α → Bool)
    (himp : ∀ x ∈ l, g x = true → f x = true) (x : α) (hx : x ∈ l)
    (hfx : f x = true) (hgx : ¬ g x = true) :
    (l.filter g).length < (l.filter f).length := by
  induction l with
  | nil => cases hx
  | cons y ys ih =>
    have himp' : ∀ z ∈ ys, g z = true → f z = true :=
      fun z hz => himp z (List.mem_cons_of_mem y hz)
    rcases List.mem_cons.mp hx with rfl | hx'
    · have hle := length_filter_le_of_imp ys f g himp'
      simp [List.filter_cons, hfx, hgx]
      omega
    · have ihlt := ih himp' hx'
      by_cases hg : g y = true
      · have hf : f y = true := himp y (List.mem_cons_self y ys) hg
        simp [List.filter_cons, hg, hf]
        omega
      · by_cases hf : f y = true <;>
          simp [List.filter_cons, hg, hf] <;> omega

theorem length_filter_lt_length_of_mem {α : Type} (l : List α) (f : α → Bool)
    (x : α) (hx : x ∈ l) (hfx : ¬ f x = true) :
    (l.filter f).length < l.length := by
  induction l with
  | nil => cases hx
  | cons y ys ih =>
    rcases List.mem_cons.mp hx with rfl | hx'
    · have := List.length_filter_le f ys
      simp [List.filter_cons, hfx]
      omega
    · have := ih hx'
      by_cases hf : f y = true <;>
        simp [List.filter_cons, hf] <;> omega

theorem mem_flattenForest_map {x : Page} {g : Page → TreeNode} {l : List Page} :
    x ∈ flattenForest (l.map g) ↔ ∃ c ∈ l, x ∈ flattenForest [g c] := by
  induction l with
  | nil => simp [flattenForest]
  | cons y ys ih =>
    rw [List.map_cons, flattenForest_cons, List.mem_append, ih]
    simp

open Classical in
theorem child_sum (pages : List Page) (depth : Nat → Nat)
    (hN : (pages.map Page.id).Nodup) (hR : ParentRanked pages depth) :
    ∀ n q p, depth q.id < n → q ∈ pages → p ∈ pages → p ≠ q →
      ((childPages pages p.id).map
          (fun c => if c = q ∨ Anc pages c q then (1 : Nat) else 0)).sum
        = if Anc pages p q then 1 else 0 := by
  intro n
  induction n with
  | zero => intro q p h _ _ _; exact absurd h (Nat.not_lt_zero _)
  | succ n ih =>
    intro q p hlt hq hp hne
    cases hpar : parentPage pages q with
    | none =>
      rw [if_neg (anc_of_parent_none hpar)]
      apply List.sum_eq_zero
      intro x hx
      rw [List.mem_map] at hx
      obtain ⟨c, hc, rfl⟩ := hx
      rw [if_neg]
      rintro (rfl | hanc)
      · obtain ⟨-, hat⟩ := mem_childPages.mp hc
        obtain ⟨a, ha⟩ := parentPage_isSome hat
        rw [hpar] at ha
        cases ha
      · exact anc_of_parent_none hpar hanc
    | some a =>
      obtain ⟨hamem, halt⟩ := parentPage_rank hR hq hpar
      obtain ⟨hatq, -⟩ := parentPage_some hpar
      by_cases hpa : p = a
      · subst hpa
        rw [if_pos (Anc.parent p q hpar)]
        have hqc : q ∈ childPages pages p.id := mem_childPages.mpr ⟨hq, hatq⟩
        have hcongr : ∀ c ∈ childPages pages p.id,
            (if c = q ∨ Anc pages c q then (1 : Nat) else 0)
              = if c = q then 1 else 0 := by
          intro c hc
          by_cases hcq : c = q
          · simp [hcq]
          · rw [if_neg hcq, if_neg]
            rintro (h | hanc)
            · exact hcq h
            · obtain ⟨a', ha', hcase⟩ := anc_iff.mp hanc
              rw [hpar] at ha'
              cases ha'
              have hcp := childPages_parentPage hN hp hc
              obtain ⟨hcmem, -⟩ := mem_childPages.mp hc
              obtain ⟨-, hltc⟩ := parentPage_rank hR hcmem hcp
              rcases hcase with rfl | hanc'
              · omega
              · obtain ⟨-, hlt2⟩ := anc_rank hR hanc' hp
                omega
        rw [List.map_congr_left hcongr, sum_map_ite_eq_count]
        exact List.count_eq_one_of_mem ((hN.of_map).filter _) hqc
      · have hiff : Anc pages p a ↔ Anc pages p q := by
          constructor
          · intro h
            exact Anc.step p a q hpar h
          · intro h
            obtain ⟨a', ha', hcase⟩ := anc_iff.mp h
            rw [hpar] at ha'
            cases ha'
            rcases hcase with rfl | h'
            · exact absurd rfl hpa
            · exact h'
        have hcongr : ∀ c ∈ childPages pages p.id,
            (if c = q ∨ Anc pages c q then (1 : Nat) else 0)
              = if c = a ∨ Anc pages c a then 1 else 0 := by
          intro c hc
          have hcq : c ≠ q := by
            intro h
            subst h
            obtain ⟨-, hatc⟩ := mem_childPages.mp hc
            rw [hatq] at hatc
            have hids : a.id = p.id := Option.some.inj hatc
            exact hpa (List.inj_on_of_nodup_map hN hp hamem hids.symm)
          apply if_congr _ rfl rfl
          constructor
          · rintro (rfl | hanc)
            · exact absurd rfl hcq
            · obtain ⟨a', ha', hcase⟩ := anc_iff.mp hanc
              rw [hpar] at ha'
              cases ha'
              exact hcase
          · intro h
            exact Or.inr (anc_iff.mpr ⟨a, hpar, h⟩)
        rw [List.map_congr_left hcongr, ih a p (by omega) hamem hp hpa]
        exact if_congr hiff rfl rfl

open Classical in
theorem count_subtree (pages : List Page) (depth : Nat → Nat)
    (hN : (pages.map Page.id).Nodup) (hR : ParentRanked pages depth) :
    ∀ fuel p q, p ∈ pages → q ∈ pages →
      (pages.filter (fun r => depth p.id < depth r.id)).length < fuel →
      (flattenForest [buildNode pages fuel p]).count q
        = if p = q ∨ Anc pages p q then 1 else 0 := by
  intro fuel
  induction fuel with
  | zero => intro p q _ _ hb; exact absurd hb (Nat.not_lt_zero _)
  | succ fuel ih =>
    intro p q hp hq hb
    rw [buildNode, flattenForest_single, List.count_cons,
      count_flattenForest_map q (buildNode pages fuel) (childPages pages p.id)]
    have hstep : ∀ c ∈ childPages pages p.id,
        (flattenForest [buildNode pages fuel c]).count q
          = if c = q ∨ Anc pages c q then (1 : Nat) else 0 := by
      intro c hc
      obtain ⟨hcmem, -⟩ := mem_childPages.mp hc
      have hcp := childPages_parentPage hN hp hc
      obtain ⟨-, hltc⟩ := parentPage_rank hR hcmem hcp
      apply ih c q hcmem hq
      have hstrict := length_filter_lt_of_imp pages
        (fun r => depth p.id < depth r.id) (fun r => depth c.id < depth r.id)
        (by intro x _ h; simp only [decide_eq_true_eq] at h ⊢; omega)
        c hcmem (by simp only [decide_eq_true_eq]; omega)
        (by simp only [decide_eq_true_eq]; omega)
      omega
    rw [List.map_congr_left hstep]
    by_cases hpq : p = q
    · subst hpq
      have hz : ((childPages pages p.id).map
          (fun c => if c = p ∨ Anc pages c p then (1 : Nat) else 0)).sum = 0 := by
        apply List.sum_eq_zero
        intro x hx
        rw [List.mem_map] at hx
        obtain ⟨c, hc, rfl⟩ := hx
        have hcp := childPages_parentPage hN hp hc
        obtain ⟨hcmem, -⟩ := mem_childPages.mp hc
        obtain ⟨-, hltc⟩ := parentPage_rank hR hcmem hcp
        rw [if_neg]
        rintro (rfl | hanc)
        · omega
        · obtain ⟨-, hlt2⟩ := anc_rank hR hanc hp
          omega
      rw [hz]
      simp
    · rw [child_sum pages depth hN hR (depth q.id + 1) q p (by omega) hq hp hpq]
      have hqp : (q == p) = false := by
        simp only [beq_eq_false_iff_ne, ne_eq]
        exact fun h => hpq h.symm
      simp [hqp, hpq]

open Classical in
theorem root_sum (pages : List Page) (depth : Nat → Nat)
    (hN : (pages.map Page.id).Nodup) (hR : ParentRanked pages depth) :
    ∀ n q, depth q.id < n → q ∈ pages →
      ((rootPages pages).map
          (fun r => if r = q ∨ Anc pages r q then (1 : Nat) else 0)).sum = 1 := by
  intro n
  induction n with
  | zero => intro q h _; exact absurd h (Nat.not_lt_zero _)
  | succ n ih =>
    intro q hlt hq
    cases hpar : parentPage pages q with
    | none =>
      have hat : attachesTo pages q = none := by
        cases ha : attachesTo pages q with
        | none => rfl
        | some j =>
          obtain ⟨a, hpa⟩ := parentPage_isSome ha
          rw [hpar] at hpa
          cases hpa
      have hmem : q ∈ rootPages pages := mem_rootPages.mpr ⟨hq, hat⟩
      have hcongr : ∀ r ∈ rootPages pages,
          (if r = q ∨ Anc pages r q then (1 : Nat) else 0)
            = if r = q then 1 else 0 := by
        intro r _
        by_cases hrq : r = q
        · simp [hrq]
        · rw [if_neg hrq, if_neg]
          rintro (h | hanc)
          · exact hrq h
          · exact anc_of_parent_none hpar hanc
      rw [List.map_congr_left hcongr, sum_map_ite_eq_count]
      exact List.count_eq_one_of_mem ((hN.of_map).filter _) hmem
    | some a =>
      obtain ⟨hamem, halt⟩ := parentPage_rank hR hq hpar
      obtain ⟨hatq, -⟩ := parentPage_some hpar
      have hqnr : q ∉ rootPages pages := by
        intro hmem
        obtain ⟨-, hat⟩ := mem_rootPages.mp hmem
        rw [hat] at hatq
        cases hatq
      have hcongr : ∀ r ∈ rootPages pages,
          (if r = q ∨ Anc pages r q then (1 : Nat) else 0)
            = if r = a ∨ Anc pages r a then 1 else 0 := by
        intro r hr
        apply if_congr _ rfl rfl
        constructor
        · rintro (rfl | hanc)
          · exact absurd hr hqnr
          · obtain ⟨a', ha', hcase⟩ := anc_iff.mp hanc
            rw [hpar] at ha'
            cases ha'
            exact hcase
        · intro h
          exact Or.inr (anc_iff.mpr ⟨a, hpar, h⟩)
      rw [List.map_congr_left hcongr]
      exact ih a (by omega) hamem

theorem mem_of_mem_flatten_buildNode (pages : List Page) :
    ∀ fuel p x, p ∈ pages → x ∈ flattenForest [buildNode pages fuel p] → x ∈ pages := by
  intro fuel
  induction fuel with
  | zero =>
    intro p x hp hx
    rw [buildNode, flattenForest_single] at hx
    simp [flattenForest] at hx
    rwa [hx]
  | succ fuel ih =>
    intro p x hp hx
    rw [buildNode, flattenForest_single] at hx
    rcases List.mem_cons.mp hx with rfl | hx'
    · exact hp
    · obtain ⟨c, hc, hxc⟩ := mem_flattenForest_map.mp hx'
      exact ih c x (mem_childPages.mp hc).1 hxc

open Classical in
theorem count_buildTree (pages : List Page) (depth : Nat → Nat)
    (hN : (pages.map Page.id).Nodup) (hR : ParentRanked pages depth) (q : Page) :
    (flattenForest (buildTreeFromFlat pages)).count q = pages.count q := by
  rw [buildTreeFromFlat, count_flattenForest_map]
  by_cases hq : q ∈ pages
  · have hstep : ∀ r ∈ rootPages pages,
        (flattenForest [buildNode pages pages.length r]).count q
          = if r = q ∨ Anc pages r q then (1 : Nat) else 0 := by
      intro r hr
      obtain ⟨hrmem, -⟩ := mem_rootPages.mp hr
      apply count_subtree pages depth hN hR pages.length r q hrmem hq
      exact length_filter_lt_length_of_mem pages _ r hrmem (by simp)
    rw [List.map_congr_left hstep,
      root_sum pages depth hN hR (depth q.id + 1) q (by omega) hq]
    exact (List.count_eq_one_of_mem (hN.of_map) hq).symm
  · rw [List.count_eq_zero.mpr hq]
    apply List.sum_eq_zero
    intro x hx
    rw [List.mem_map] at hx
    obtain ⟨r, hr, rfl⟩ := hx
    obtain ⟨hrmem, -⟩ := mem_rootPages.mp hr
    exact List.count_eq_zero.mpr
      (fun hmem => hq (mem_of_mem_flatten_buildNode pages pages.length r q hrmem hmem))

/-- C1 (amended). For every flat input list with pairwise distinct ids
and an acyclic parent relation (witnessed by a rank function),
`buildTreeFromFlat` produces a forest in which every input record
appears exactly once across all levels (the depth-first flattening is a
permutation of the input), and a record is in the root list iff its
parent id is null/absent, equal to `0` (which the JavaScript truthiness
test `page.parent_id && ...` treats like an absent parent), or not the
id of any input record — orphans are kept as roots, never dropped. -/
theorem buildTreeFromFlat_forest (pages : List Page) (depth : Nat → Nat)
    (hN : (pages.map Page.id).Nodup) (hR : ParentRanked pages depth) :
    (flattenForest (buildTreeFromFlat pages)).Perm pages ∧
      ∀ p ∈ pages,
        (p ∈ (buildTreeFromFlat pages).map TreeNode.page ↔
          ∀ j, p.parent_id = some j → j = 0 ∨ j ∉ pages.map Page.id) := by
  constructor
  · rw [List.perm_iff_count]
    intro q
    exact count_buildTree pages depth hN hR q
  · intro p hp
    have hmap : (buildTreeFromFlat pages).map TreeNode.page = rootPages pages := by
      rw [buildTreeFromFlat, List.map_map]
      have hcomp : (TreeNode.page ∘ buildNode pages pages.length) = fun r => r := by
        funext r
        simp [Function.comp, page_buildNode]
      rw [hcomp]
      exact List.map_id' _
    rw [hmap, mem_rootPages]
    constructor
    · rintro ⟨-, hat⟩ j hj
      by_contra hcon
      push_neg at hcon
      obtain ⟨hj0, hjmem⟩ := hcon
      have : attachesTo pages p = some j := by
        simp [attachesTo, hj, hj0, hjmem]
      rw [hat] at this
      cases this
    · intro hcond
      refine ⟨hp, ?_⟩
      cases hj : p.parent_id with
      | none => simp [attachesTo, hj]
      | some j =>
        rcases hcond j hj with rfl | hnm
        · simp [attachesTo, hj]
        · simp [attachesTo, hj, hnm]

/-- C1 counterexample. On the input
`[{id: 0, parent: null}, {id: 1, parent: 0}]` — pairwise distinct ids,
acyclic — the record with id `1` lands in the root list even though its
parent id `0` is non-null and is the id of an input record: the guard
`page.parent_id && map.has(page.parent_id)` evaluates `0` as falsy, so
the claimed "root iff parent null or absent from the id set" fails. -/
theorem buildTreeFromFlat_zero_parent_counterexample :
    (⟨1, some 0, "child", 0⟩ : Page) ∈
        (buildTreeFromFlat
          [⟨0, none, "root", 0⟩, ⟨1, some 0, "child", 0⟩]).map TreeNode.page
      ∧ (⟨1, some 0, "child", 0⟩ : Page).parent_id = some 0
      ∧ (0 : Nat) ∈
          ([⟨0, none, "root", 0⟩, ⟨1, some 0, "child", 0⟩] : List Page).map Page.id := by
  refine ⟨?_, rfl, by decide⟩
  decide

/-- C1 witness: the amended theorem applied to a concrete four-page
list (two children under one root plus one orphan), with the identity
rank function discharging the acyclicity hypothesis. -/
theorem buildTreeFromFlat_forest_witness :
    ((pagesEx.map Page.id).Nodup ∧ ParentRanked pagesEx (fun i => i)) ∧
      (flattenForest (buildTreeFromFlat pagesEx)).Perm pagesEx :=
  ⟨⟨by decide, by decide⟩,
    (buildTreeFromFlat_forest pagesEx (fun i => i) (by decide) (by decide)).1⟩

/-! ### Tree lookup (`findPageInTree`) -/

theorem findPageInTree_sound (l : List TreeNode) (X : Nat) (t : TreeNode) :
    findPageInTree l X = some t → t.page.id = X ∧ t.page ∈ flattenForest l := by
  induction l, X using findPageInTree.induct with
  | case1 X => intro h; simp [findPageInTree] at h
  | case2 p cs rest =>
    intro h
    rw [findPageInTree, if_pos rfl] at h
    cases h
    exact ⟨rfl, by simp [flattenForest, TreeNode.page]⟩
  | case3 p cs rest X hne found hfound ih =>
    intro h
    rw [findPageInTree, if_neg hne, hfound] at h
    cases h
    obtain ⟨h1, h2⟩ := ih hfound
    exact ⟨h1, by simp [flattenForest, h2]⟩
  | case4 p cs rest X hne hnone ih1 ih2 =>
    intro h
    rw [findPageInTree, if_neg hne, hnone] at h
    obtain ⟨h1, h2⟩ := ih2 h
    exact ⟨h1, by simp [flattenForest, h2]⟩

theorem findPageInTree_none (l : List TreeNode) (X : Nat) :
    findPageInTree l X = none → ∀ q ∈ flattenForest l, q.id ≠ X := by
  induction l, X using findPageInTree.induct with
  | case1 X => intro _ q hq; simp [flattenForest] at hq
  | case2 p cs rest =>
    intro h
    rw [findPageInTree, if_pos rfl] at h
    cases h
  | case3 p cs rest X hne found hfound ih =>
    intro h
    rw [findPageInTree, if_neg hne, hfound] at h
    cases h
  | case4 p cs rest X hne hnone ih1 ih2 =>
    intro h
    rw [findPageInTree, if_neg hne, hnone] at h
    intro q hq
    simp only [flattenForest, List.mem_cons, List.mem_append] at hq
    rcases hq with rfl | hq' | hq'
    · exact hne
    · exact ih1 hnone q hq'
    · exact ih2 h q hq'

/-- C6. On a forest built from a list with distinct ids and an acyclic
parent relation, the depth-first search `findPageInTree` returns, for
every id X of an input record, a node carrying exactly that record, and
returns "not found" (`none`) for every id that is not the id of any
input record. (Termination on acyclic inputs holds by construction: the
embedding is a total function.) -/
theorem findPageInTree_spec (pages : List Page) (depth : Nat → Nat)
    (hN : (pages.map Page.id).Nodup) (hR : ParentRanked pages depth) (X : Nat) :
    (∀ p ∈ pages, p.id = X →
        ∃ t, findPageInTree (buildTreeFromFlat pages) X = some t ∧ t.page = p) ∧
      ((∀ p ∈ pages, p.id ≠ X) → findPageInTree (buildTreeFromFlat pages) X = none) := by
  have hperm : (flattenForest (buildTreeFromFlat pages)).Perm pages :=
    List.perm_iff_count.mpr (count_buildTree pages depth hN hR)
  constructor
  · intro p hp hpX
    have hmem : p ∈ flattenForest (buildTreeFromFlat pages) := hperm.mem_iff.mpr hp
    cases hf : findPageInTree (buildTreeFromFlat pages) X with
    | none => exact absurd hpX (findPageInTree_none _ _ hf p hmem)
    | some t =>
      obtain ⟨hid, hmemt⟩ := findPageInTree_sound _ _ _ hf
      have htp : t.page ∈ pages := hperm.mem_iff.mp hmemt
      exact ⟨t, rfl, List.inj_on_of_nodup_map hN htp hp (by rw [hid, hpX])⟩
  · intro hall
    cases hf : findPageInTree (buildTreeFromFlat pages) X with
    | none => rfl
    | some t =>
      obtain ⟨hid, hmemt⟩ := findPageInTree_sound _ _ _ hf
      exact absurd hid (hall t.page (hperm.mem_iff.mp hmemt))

/-- C6 witness: on the concrete four-page forest, looking up id 3 finds
the record with id 3. -/
theorem findPageInTree_spec_witness :
    ((pagesEx.map Page.id).Nodup ∧ ParentRanked pagesEx (fun i => i)) ∧
      ∃ t, findPageInTree (buildTreeFromFlat pagesEx) 3 = some t ∧
        t.page = ⟨3, some 1, "c", 5⟩ :=
  ⟨⟨by decide, by decide⟩,
    (findPageInTree_spec pagesEx (fun i => i) (by decide) (by decide) 3).1
      ⟨3, some 1, "c", 5⟩ (by decide) rfl⟩

/-! ### Sibling order and the display sort -/

theorem allNodes_cons (t : TreeNode) (ts : List TreeNode) :
    allNodes (t :: ts) = allNodes [t] ++ allNodes ts := by
  cases t with
  | mk p cs => simp [allNodes]

theorem allNodes_single (p : Page) (cs : List TreeNode) :
    allNodes [TreeNode.mk p cs] = TreeNode.mk p cs :: allNodes cs := by
  simp [allNodes]

theorem mem_allNodes_map {t : TreeNode} {g : Page → TreeNode} {l : List Page} :
    t ∈ allNodes (l.map g) ↔ ∃ c ∈ l, t ∈ allNodes [g c] := by
  induction l with
  | nil => simp [allNodes]
  | cons y ys ih =>
    rw [List.map_cons, allNodes_cons, List.mem_append, ih]
    simp

theorem children_map_page (pages : List Page) (fuel : Nat) (p : Page) :
    (buildNode pages (fuel + 1) p).children.map TreeNode.page
      = childPages pages p.id := by
  rw [buildNode]
  show ((childPages pages p.id).map (buildNode pages fuel)).map TreeNode.page
    = childPages pages p.id
  rw [List.map_map]
  have hcomp : ∀ c ∈ childPages pages p.id,
      (TreeNode.page ∘ buildNode pages fuel) c = c := by
    intro c _
    simp [Function.comp, page_buildNode]
  rw [List.map_congr_left hcomp, List.map_id']

theorem allNodes_buildNode_spec (pages : List Page) (depth : Nat → Nat)
    (hN : (pages.map Page.id).Nodup) (hR : ParentRanked pages depth) :
    ∀ fuel p, p ∈ pages →
      (pages.filter (fun r => depth p.id < depth r.id)).length < fuel →
      ∀ t ∈ allNodes [buildNode pages fuel p],
        t.page ∈ pages ∧ t.children.map TreeNode.page = childPages pages t.page.id := by
  intro fuel
  induction fuel with
  | zero => intro p _ hb; exact absurd hb (Nat.not_lt_zero _)
  | succ fuel ih =>
    intro p hp hb t ht
    rw [buildNode, allNodes_single] at ht
    rcases List.mem_cons.mp ht with rfl | ht'
    · refine ⟨hp, ?_⟩
      have := children_map_page pages fuel p
      rw [buildNode] at this
      exact this
    · obtain ⟨c, hc, htc⟩ := mem_allNodes_map.mp ht'
      obtain ⟨hcmem, -⟩ := mem_childPages.mp hc
      have hcp := childPages_parentPage hN hp hc
      obtain ⟨-, hltc⟩ := parentPage_rank hR hcmem hcp
      apply ih c hcmem _ t htc
      have hstrict := length_filter_lt_of_imp pages
        (fun r => depth p.id < depth r.id) (fun r => depth c.id < depth r.id)
        (by intro x _ h; simp only [decide_eq_true_eq] at h ⊢; omega)
        c hcmem (by simp only [decide_eq_true_eq]; omega)
        (by simp only [decide_eq_true_eq]; omega)
      omega

/-- C9. The builder applies no re-sorting: on a valid input (distinct
ids, acyclic parent relation) the root list carries the input pages that
fail the attachment test in input order, and the children array of every
node of the built forest is exactly the input-order sublist of pages
attaching to that node's id. The presentation-layer sort of
`PageTreeItem` (`[...page.children].sort((a, b) => bLikes - aLikes)`)
operates on a spread-copy of the children array — the built structure
keeps its input order — and only rearranges it: its output is a
permutation of the children. -/
theorem builder_preserves_order (pages : List Page) (depth : Nat → Nat)
    (hN : (pages.map Page.id).Nodup) (hR : ParentRanked pages depth) :
    ((buildTreeFromFlat pages).map TreeNode.page = rootPages pages ∧
        ∀ t ∈ allNodes (buildTreeFromFlat pages),
          t.children.map TreeNode.page = childPages pages t.page.id) ∧
      ∀ cs : List TreeNode, (sortChildrenByLikes cs).Perm cs := by
  refine ⟨⟨?_, ?_⟩, ?_⟩
  · rw [buildTreeFromFlat, List.map_map]
    have hcomp : (TreeNode.page ∘ buildNode pages pages.length) = fun r => r := by
      funext r
      simp [Function.comp, page_buildNode]
    rw [hcomp]
    exact List.map_id' _
  · intro t ht
    rw [buildTreeFromFlat] at ht
    obtain ⟨r, hr, htr⟩ := mem_allNodes_map.mp ht
    obtain ⟨hrmem, -⟩ := mem_rootPages.mp hr
    exact (allNodes_buildNode_spec pages depth hN hR pages.length r hrmem
      (length_filter_lt_length_of_mem pages _ r hrmem (by simp)) t htr).2
  · intro cs
    exact List.mergeSort_perm cs _

/-- C9 witness: the order theorem applied to the concrete four-page
list, together with the display sort rearranging a concrete children
pair (likes 3 and 5) without losing records. -/
theorem builder_preserves_order_witness :
    ((pagesEx.map Page.id).Nodup ∧ ParentRanked pagesEx (fun i => i)) ∧
      ((buildTreeFromFlat pagesEx).map TreeNode.page = rootPages pagesEx ∧
          ∀ t ∈ allNodes (buildTreeFromFlat pagesEx),
            t.children.map TreeNode.page = childPages pagesEx t.page.id) ∧
        ∀ cs : List TreeNode, (sortChildrenByLikes cs).Perm cs :=
  ⟨⟨by decide, by decide⟩,
    builder_preserves_order pagesEx (fun i => i) (by decide) (by decide)⟩

/-! ### Cache/query layer: tags and invalidation (src api.ts) -/

/-- Cache key parameter: page queries accept a numeric id or a slug
string (`number | string` in api.ts). -/
inductive PId where
  | num (n : Nat)
  | str (s : String)
deriving DecidableEq, Repr

/-- The tag types declared in api.ts:
`tagTypes: ['Page', 'Pages', 'User', 'Search']`, where `Page` tags carry
the id of the tagged page. -/
inductive Tag where
  | page (id : PId)
  | pages
  | user
  | search
deriving DecidableEq, Repr

/-- `providesTags` of `getPage`: `[{ type: 'Page', id }]`. -/
def getPage_providesTags (idOrSlug : PId) : List Tag := [.page idOrSlug]

/-- `providesTags` of `getPages`: `['Pages']`. -/
def getPages_providesTags : List Tag := [.pages]

/-- `invalidatesTags` of `updatePage`: `[{ type: 'Page', id }, 'Pages']`. -/
def updatePage_invalidatesTags (id : PId) : List Tag := [.page id, .pages]

/-- `invalidatesTags` of `addCollaborator`: `[{ type: 'Page', id: pageId }]`. -/
def addCollaborator_invalidatesTags (pageId : PId) : List Tag := [.page pageId]

/-- One cached query result: its key, the tags it provides, and its
staleness flag. -/
structure CacheEntry where
  key : String
  tags : List Tag
  stale : Bool
deriving DecidableEq, Repr

/-- Modelled from the spec: §4.3 "upon successful mutation, every cached
query result sharing an invalidated tag is marked stale" — the
tag-matching step performed by the query framework itself, which is not
part of this repository's sources; entries sharing no invalidated tag
are left untouched. -/
def applyMutation (invalidates : List Tag) (cache : List CacheEntry) : List CacheEntry :=
  cache.map (fun e =>
    if e.tags.any (fun t => t ∈ invalidates) then { e with stale := true } else e)

/-- The three cached results of the C3 scenario: `getPage(5)`,
`getPages()`, and the unrelated `getPage(6)`, all fresh. -/
def cacheScenario : List CacheEntry :=
  [⟨"getPage(5)", getPage_providesTags (.num 5), false⟩,
    ⟨"getPages()", getPages_providesTags, false⟩,
    ⟨"getPage(6)", getPage_providesTags (.num 6), false⟩]

/-- C3. After `updatePage(5)` succeeds, the cached `getPage(5)` and
`getPages()` results are both marked stale (their tag sets meet the
declared invalidation set `{Page:5, Pages}`), while the cached
`getPage(6)` entry is left untouched; and `addCollaborator` declares
only the tag `Page:{id}`, so it marks a `Page:{id}`-tagged entry stale
but leaves a `Pages`-tagged list entry untouched, for every page id. -/
theorem cache_invalidation_spec :
    applyMutation (updatePage_invalidatesTags (.num 5)) cacheScenario
        = [⟨"getPage(5)", getPage_providesTags (.num 5), true⟩,
            ⟨"getPages()", getPages_providesTags, true⟩,
            ⟨"getPage(6)", getPage_providesTags (.num 6), false⟩] ∧
      (∀ pid, addCollaborator_invalidatesTags pid = [Tag.page pid]) ∧
      (∀ pid k b, applyMutation (addCollaborator_invalidatesTags pid)
          [⟨k, getPages_providesTags, b⟩] = [⟨k, getPages_providesTags, b⟩]) ∧
      (∀ pid k b, applyMutation (addCollaborator_invalidatesTags pid)
          [⟨k, getPage_providesTags pid, b⟩] = [⟨k, getPage_providesTags pid, true⟩]) := by
  refine ⟨by decide, fun pid => rfl, ?_, ?_⟩
  · intro pid k b
    simp [applyMutation, addCollaborator_invalidatesTags, getPages_providesTags]
  · intro pid k b
    simp [applyMutation, addCollaborator_invalidatesTags, getPage_providesTags]

/-! ### Session state, credential attachment, 401 handling
(src api.ts `prepareHeaders` / `baseQueryWithReauth`, authSlice.ts) -/

/-- Client-side session state: the Redux auth slice (`user`, `token`)
plus the persisted credential (`localStorage.getItem('token')`). User
ids are strings, as in authSlice's `User.id: string`. -/
structure ClientState where
  user : Option String
  token : Option String
  storedToken : Option String
deriving DecidableEq, Repr

/-- JavaScript truthiness of a nullable string: `null`/`undefined` and
the empty string are falsy. -/
def truthyStr : Option String → Bool
  | none => false
  | some s => s ≠ ""

/-- Embedding of the `logout` reducer of authSlice.ts: set `user` and
`token` to null and remove the persisted token. -/
def logout (s : ClientState) : ClientState :=
  { s with user := none, token := none, storedToken := none }

/-- Embedding of the credential lookup of `prepareHeaders`:
`state.auth.token || localStorage.getItem('token')` — the `||` falls
back whenever the session value is falsy (null or the empty string). -/
def tokenLookup (s : ClientState) : Option String :=
  if truthyStr s.token then s.token else s.storedToken

/-- Embedding of the `prepareHeaders` of the reauth `baseQuery` (the
api.ts variant whose lookup is
`state.auth.token || localStorage.getItem('token')`): under
`if (token)` the request gets `authorization: Bearer ${token}`; a falsy
looked-up token attaches no authorization header (`none`). The
computation does not depend on which endpoint issues the request: one
`baseQuery` serves every operation. -/
def prepareHeaders (s : ClientState) : Option String :=
  match tokenLookup s with
  | some t => if t ≠ "" then some ("Bearer " ++ t) else none
  | none => none

/-- Embedding of the `prepareHeaders` of the other api.ts `baseQuery`
variant: `const token = (getState() as RootState).auth.token` — it
reads only the Redux session token, with no persisted-storage fallback,
and attaches `Bearer ${token}` under the same `if (token)` truthiness
guard. -/
def prepareHeadersLegacy (s : ClientState) : Option String :=
  match s.token with
  | some t => if t ≠ "" then some ("Bearer " ++ t) else none
  | none => none

/-- Embedding of the 401 branch of `baseQueryWithReauth`:
`localStorage.removeItem('token')` followed by dispatching `logout`. -/
def handle401 (s : ClientState) : ClientState :=
  logout { s with storedToken := none }

/-- Result post-processing of `baseQueryWithReauth`: only an error with
status 401 alters the session state. -/
def baseQueryResponse (s : ClientState) (status : Nat) : ClientState :=
  if status = 401 then handle401 s else s

/-- C4. Whatever the session state was, a 401 response clears the
in-memory user and token (via the `logout` action) and removes the
persisted credential, and the next request through `prepareHeaders`
attaches no authorization header. -/
theorem unauthorized_clears_session (s : ClientState) :
    (baseQueryResponse s 401).user = none ∧
      (baseQueryResponse s 401).token = none ∧
      (baseQueryResponse s 401).storedToken = none ∧
      prepareHeaders (baseQueryResponse s 401) = none := by
  simp [baseQueryResponse, handle401, logout, prepareHeaders, tokenLookup, truthyStr]

/-- Formalisation of claim C7 exactly as stated, for a given header
computation: the attached header is `Bearer {token}` with the session
store value whenever the session store holds one, the persisted value
when the session store holds none, and absent when neither holds one. -/
def c7Claim (header : ClientState → Option String) (s : ClientState) : Prop :=
  match s.token with
  | some t => header s = some ("Bearer " ++ t)
  | none =>
    match s.storedToken with
    | some t => header s = some ("Bearer " ++ t)
    | none => header s = none

/-- C7 counterexample, one per cited `prepareHeaders` variant. Reauth
variant: with session token `""` and stored token `"tok"` the code
attaches `Bearer tok` — the `||` lookup treats the empty string as
absent and falls back to storage — whereas the claim as stated picks
the session store value (`Bearer `). Legacy variant: with no session
token and stored token `"tok"` the code attaches no header at all —
it never reads persisted storage — whereas the claim's fallback
predicts `Bearer tok`. -/
theorem prepareHeaders_counterexample :
    (¬ c7Claim prepareHeaders ⟨none, some "", some "tok"⟩) ∧
      (¬ c7Claim prepareHeadersLegacy ⟨none, none, some "tok"⟩) := by
  constructor <;> (unfold c7Claim; decide)

/-- C7 (amended). Attachment is uniform — each `baseQuery`'s header
depends only on the session state, not on the operation — but the two
cited `prepareHeaders` implementations differ. The reauth variant
carries `Bearer {token}` with the session store value when it is a
non-empty string; otherwise (session value null or the empty string,
both falsy for `||`) with the persisted storage value when that is
non-empty; and attaches no authorization header when neither source
holds a non-empty token. The legacy variant reads only the session
store: it carries `Bearer {token}` exactly when the session value is a
non-empty string and otherwise attaches no header, never consulting
persisted storage. -/
theorem prepareHeaders_spec (s : ClientState) :
    (∀ t, s.token = some t → t ≠ "" → prepareHeaders s = some ("Bearer " ++ t)) ∧
      (∀ u, (s.token = none ∨ s.token = some "") → s.storedToken = some u → u ≠ "" →
        prepareHeaders s = some ("Bearer " ++ u)) ∧
      (truthyStr s.token = false → truthyStr s.storedToken = false →
        prepareHeaders s = none) ∧
      (∀ t, s.token = some t → t ≠ "" →
        prepareHeadersLegacy s = some ("Bearer " ++ t)) ∧
      (truthyStr s.token = false → prepareHeadersLegacy s = none) := by
  obtain ⟨uo, tk, so⟩ := s
  refine ⟨?_, ?_, ?_, ?_, ?_⟩
  · rintro t rfl ht
    simp [prepareHeaders, tokenLookup, truthyStr, ht]
  · rintro u hto rfl hu
    rcases hto with rfl | rfl <;>
      simp [prepareHeaders, tokenLookup, truthyStr, hu]
  · intro hto hso
    cases tk with
    | none =>
      cases so with
      | none => simp [prepareHeaders, tokenLookup, truthyStr]
      | some v =>
        have hv : v = "" := by simpa [truthyStr] using hso
        simp [prepareHeaders, tokenLookup, truthyStr, hv]
    | some t =>
      have ht : t = "" := by simpa [truthyStr] using hto
      cases so with
      | none => simp [prepareHeaders, tokenLookup, truthyStr, ht]
      | some v =>
        have hv : v = "" := by simpa [truthyStr] using hso
        simp [prepareHeaders, tokenLookup, truthyStr, ht, hv]
  · rintro t rfl ht
    simp [prepareHeadersLegacy, ht]
  · intro hto
    cases tk with
    | none => simp [prepareHeadersLegacy]
    | some t =>
      have ht : t = "" := by simpa [truthyStr] using hto
      simp [prepareHeadersLegacy, ht]

/-- C7 witness: a state whose session token is the non-empty string
"abc" gets the header `Bearer abc` from both variants, even though
storage holds "zzz". -/
theorem prepareHeaders_spec_witness :
    prepareHeaders ⟨none, some "abc", some "zzz"⟩ = some ("Bearer " ++ "abc") ∧
      prepareHeadersLegacy ⟨none, some "abc", some "zzz"⟩ = some ("Bearer " ++ "abc") :=
  ⟨(prepareHeaders_spec ⟨none, some "abc", some "zzz"⟩).1 "abc" rfl (by decide),
    (prepareHeaders_spec ⟨none, some "abc", some "zzz"⟩).2.2.2.1 "abc" rfl (by decide)⟩

/-! ### Recently-visited pages (src Sidebar variants and PageViewer) -/

/-- Durable browser storage, restricted to the recent-pages values: a
key-value store of page-id lists (`JSON.parse`/`JSON.stringify` of a
number array round-trips, so it is modelled as the identity on the
list). -/
abbrev Store := List (String × List Nat)

/-- Embedding of `localStorage.getItem`: the value of the first (and,
as maintained by `setItem`, only) entry under the key. -/
def getItem (st : Store) (k : String) : Option (List Nat) :=
  (st.find? (fun e => e.1 = k)).map (fun e => e.2)

/-- Embedding of `localStorage.setItem`: replace the value under the
key. -/
def setItem (st : Store) (k : String) (v : List Nat) : Store :=
  (k, v) :: st.filter (fun e => e.1 ≠ k)

/-- Embedding of `getRecentPages`: `recent ? JSON.parse(recent) : []` —
an absent entry reads as the empty list. -/
def getRecentList (st : Store) (k : String) : List Nat :=
  (getItem st k).getD []

/-- Embedding of `addRecentPage(pageId)` from
components/layout/Sidebar.tsx (and the identical legacy sidebar
variant): one shared key `'recentPages'` for every visitor — drop the
id if present, unshift it, keep the first five, store. -/
def addRecentPageGlobal (pageId : Nat) (st : Store) : Store :=
  setItem st "recentPages"
    ((pageId :: (getRecentList st "recentPages").filter (fun i => i ≠ pageId)).take 5)

/-- Embedding of the visit-tracking effect of
components/layout/Sidebar.tsx: every `/page/{id}` navigation calls
`addRecentPage(pageId)`; the effect has no user guard, so the session
user plays no role. -/
def sidebarTrackVisit (_user : Option String) (pageId : Nat) (st : Store) : Store :=
  addRecentPageGlobal pageId st

/-- Embedding of `getRecentPagesKey(userId)` from the per-user sidebar
variant: a falsy user id (null or the empty string) yields the guest
key, otherwise `recentPages_{userId}`. -/
def getRecentPagesKey (userId : Option String) : String :=
  if truthyStr userId then "recentPages_" ++ userId.getD "" else "recentPages_guest"

/-- Embedding of `addRecentPage(pageId, userId)` from the per-user
sidebar variant: `if (!userId) return` — guests are not tracked;
otherwise update the list under the user's own key. -/
def addRecentPageUser (userId : Option String) (pageId : Nat) (st : Store) : Store :=
  if truthyStr userId then
    setItem st (getRecentPagesKey userId)
      ((pageId :: (getRecentList st (getRecentPagesKey userId)).filter
          (fun i => i ≠ pageId)).take 5)
  else st

/-- Embedding of the visit-tracking effect of PageViewer.tsx:
`if (page && page.id && user)` — tracked only for an authenticated user
and a truthy page id, under `recentPages_${user.id}`. -/
def pageViewerTrackVisit (user : Option String) (pageId : Nat) (st : Store) : Store :=
  match user with
  | none => st
  | some uid =>
    if pageId ≠ 0 then
      setItem st ("recentPages_" ++ uid)
        ((pageId :: (getRecentList st ("recentPages_" ++ uid)).filter
            (fun i => i ≠ pageId)).take 5)
    else st

/-- Every stored recent-pages list has at most five entries. -/
def StoreBounded (st : Store) : Prop :=
  ∀ k l, getItem st k = some l → l.length ≤ 5

theorem find?_filter_of_imp {α : Type} (l : List α) (p q : α → Bool)
    (himp : ∀ e, p e = true → q e = true) :
    (l.filter q).find? p = l.find? p := by
  induction l with
  | nil => rfl
  | cons x xs ih =>
    by_cases hq : q x = true
    · rw [List.filter_cons_of_pos hq]
      by_cases hp : p x = true
      · rw [List.find?_cons_of_pos _ hp, List.find?_cons_of_pos _ hp]
      · rw [List.find?_cons_of_neg _ hp, List.find?_cons_of_neg _ hp, ih]
    · have hp : ¬ p x = true := fun h => hq (himp x h)
      rw [List.filter_cons_of_neg (by simpa using hq), List.find?_cons_of_neg _ hp, ih]

theorem getItem_setItem_self (st : Store) (k : String) (v : List Nat) :
    getItem (setItem st k v) k = some v := by
  unfold getItem setItem
  rw [List.find?_cons_of_pos _ (by simp)]
  rfl

theorem getItem_setItem_ne (st : Store) (k : String) (v : List Nat) (k' : String)
    (hne : k' ≠ k) :
    getItem (setItem st k v) k' = getItem st k' := by
  unfold getItem setItem
  rw [List.find?_cons_of_neg _ (by simp [Ne.symm hne]),
    find?_filter_of_imp st (fun e => e.1 = k') (fun e => e.1 ≠ k)
      (by intro e he; simp only [decide_eq_true_eq] at he ⊢; rw [he]; exact hne)]

theorem storeBounded_setItem {st : Store} (hb : StoreBounded st) (k : String)
    {v : List Nat} (hv : v.length ≤ 5) : StoreBounded (setItem st k v) := by
  intro k' l hget
  by_cases hk : k' = k
  · subst hk
    rw [getItem_setItem_self] at hget
    cases hget
    exact hv
  · rw [getItem_setItem_ne st k v k' hk] at hget
    exact hb k' l hget

/-- C8 counterexample. The visit tracker of
components/layout/Sidebar.tsx runs without a user guard and writes the
single shared key `'recentPages'`: a visit to page 7 by an
unauthenticated visitor, starting from empty storage, persists the list
`[7]` — the list is written without authentication and is not
namespaced per user. -/
theorem recentPages_guest_write_counterexample :
    sidebarTrackVisit none 7 [] ≠ [] ∧
      getItem (sidebarTrackVisit none 7 []) "recentPages" = some [7] := by
  constructor <;> decide

/-- C8 (amended). The bounded-length-5 invariant holds for every
tracker variant and any prior store. The per-user namespacing and the
guest exclusion hold for the per-user tracker (the per-user sidebar
variant's `addRecentPage` and the PageViewer effect): a guest visit
writes nothing, an authenticated user's visit touches no key other than
`recentPages_{userId}`, and distinct user ids own distinct keys. The
legacy shared-key tracker (components/layout/Sidebar.tsx) keeps the
length bound but writes one un-namespaced key for any visitor,
authenticated or not — see the counterexample. -/
theorem recentPages_spec (st : Store) (pageId : Nat) :
    (addRecentPageUser none pageId st = st ∧
        pageViewerTrackVisit none pageId st = st) ∧
      (∀ uid k, uid ≠ "" → k ≠ "recentPages_" ++ uid →
        getItem (addRecentPageUser (some uid) pageId st) k = getItem st k ∧
          getItem (pageViewerTrackVisit (some uid) pageId st) k = getItem st k) ∧
      (∀ a b : String, a ≠ b → "recentPages_" ++ a ≠ "recentPages_" ++ b) ∧
      (StoreBounded st →
        (∀ user, StoreBounded (addRecentPageUser user pageId st)) ∧
          (∀ user, StoreBounded (pageViewerTrackVisit user pageId st)) ∧
          StoreBounded (addRecentPageGlobal pageId st)) := by
  refine ⟨⟨rfl, rfl⟩, ?_, ?_, ?_⟩
  · intro uid k huid hk
    have hkey : getRecentPagesKey (some uid) = "recentPages_" ++ uid := by
      simp [getRecentPagesKey, truthyStr, huid]
    constructor
    · rw [addRecentPageUser, if_pos (by simp [truthyStr, huid]), hkey]
      exact getItem_setItem_ne _ _ _ _ hk
    · rw [pageViewerTrackVisit]
      by_cases hp : pageId ≠ 0
      · rw [if_pos hp]
        exact getItem_setItem_ne _ _ _ _ hk
      · rw [if_neg hp]
  · intro a b hab hcon
    apply hab
    have hd := congrArg String.data hcon
    simp only [String.data_append] at hd
    exact String.ext (List.append_cancel_left hd)
  · intro hb
    have htake : ∀ (x : Nat) (l : List Nat), ((x :: l).take 5).length ≤ 5 :=
      fun x l => List.length_take_le 5 _
    refine ⟨?_, ?_, storeBounded_setItem hb _ (htake _ _)⟩
    · intro user
      rw [addRecentPageUser]
      by_cases hu : truthyStr user = true
      · rw [if_pos hu]
        exact storeBounded_setItem hb _ (htake _ _)
      · rw [if_neg hu]
        exact hb
    · intro user
      cases user with
      | none => exact hb
      | some uid =>
        rw [pageViewerTrackVisit]
        by_cases hp : pageId ≠ 0
        · rw [if_pos hp]
          exact storeBounded_setItem hb _ (htake _ _)
        · rw [if_neg hp]
          exact hb

/-- C8 witness: user "u1" visiting page 7 leaves user "u2"'s list
untouched, and the two users' keys differ. -/
theorem recentPages_spec_witness :
    ("u1" : String) ≠ "" ∧ ("recentPages_" ++ "u2") ≠ ("recentPages_" ++ "u1") ∧
      getItem (addRecentPageUser (some "u1") 7 [("recentPages_" ++ "u2", [3])])
          ("recentPages_" ++ "u2")
        = getItem [("recentPages_" ++ "u2", [3])] ("recentPages_" ++ "u2") :=
  ⟨by decide,
    (recentPages_spec [("recentPages_" ++ "u2", [3])] 7).2.2.1 "u2" "u1" (by decide),
    ((recentPages_spec [("recentPages_" ++ "u2", [3])] 7).2.1 "u1"
        ("recentPages_" ++ "u2") (by decide)
        ((recentPages_spec [("recentPages_" ++ "u2", [3])] 7).2.2.1 "u2" "u1"
          (by decide))).1⟩

end WikiApp
